import Mathlib

/-!
Verification of the sudoku checker/partial-completer (`src/sudoku.c`).

The grid of size `psize` is embedded as a flat row-major `List Nat`:
cell `(row, col)` (both 1-indexed, as in the source) lives at index
`(row-1)*psize + (col-1)`.  Reads out of bounds return 0 and writes out of
bounds are dropped (`List.set` semantics); the theorems that need the grid
to actually hold `psize*psize` cells carry the hypothesis
`g.length = psize * psize`, which is how `readSudokuPuzzle` allocates it.

The `do {...} while (progress)` completion loop of `checkPuzzle` is embedded
with an explicit iteration bound `emptyCount g + 1`; the termination theorem
proves that this bound is reached only after a pass with no fills, i.e. the
bounded loop computes the same fixed point the C loop reaches.

The box dimension is `n = (int)(sqrt(psize) + 0.5)` in the source; for a
perfect-square `psize` (the data-model invariant, assumed and not validated
by the source) this is the exact integer square root, embedded here as the
largest `k ≤ psize` with `k * k ≤ psize` (a structurally recursive search,
so that concrete instances evaluate).
-/

namespace Sudoku

/-- Integer square root: largest `k ≤ bound` with `k * k ≤ psize`. -/
def boxDimAux (psize : Nat) : Nat → Nat
  | 0 => 0
  | k + 1 => if (k + 1) * (k + 1) ≤ psize then k + 1 else boxDimAux psize k

/-- The box dimension `n = (int)(sqrt(psize) + 0.5)` of the source, for
perfect-square `psize`. -/
def boxDim (psize : Nat) : Nat :=
  boxDimAux psize psize

/-- Read `grid[row][col]` for a 1-indexed cell, row-major flat storage. -/
def getCell (psize : Nat) (g : List Nat) (row col : Nat) : Nat :=
  g.getD ((row - 1) * psize + (col - 1)) 0

/-- Write `grid[row][col] = v` for a 1-indexed cell. -/
def setCell (psize : Nat) (g : List Nat) (row col v : Nat) : List Nat :=
  g.set ((row - 1) * psize + (col - 1)) v

/-- The cells of row `row`, in the column order `col = 1..psize` scanned by
the source. -/
def rowCoords (psize row : Nat) : List (Nat × Nat) :=
  (List.range psize).map (fun k => (row, k + 1))

/-- The cells of column `col`, in the row order `row = 1..psize`. -/
def colCoords (psize col : Nat) : List (Nat × Nat) :=
  (List.range psize).map (fun k => (k + 1, col))

/-- The cells of the `n×n` box with top-left corner `(i*n+1, j*n+1)`,
scanned row-major as in the source. -/
def boxCoords (n i j : Nat) : List (Nat × Nat) :=
  (List.range n).flatMap (fun dr => (List.range n).map (fun dc => (i * n + 1 + dr, j * n + 1 + dc)))

/-- All 3N regions in the order both the completion pass and the validator
iterate them: rows 1..psize, then columns 1..psize, then boxes (i-major). -/
def allRegionCoords (psize n : Nat) : List (List (Nat × Nat)) :=
  ((List.range psize).map (fun r => rowCoords psize (r + 1)))
    ++ ((List.range psize).map (fun c => colCoords psize (c + 1)))
    ++ ((List.range n).flatMap (fun i => (List.range n).map (fun j => boxCoords n i j)))

/-- The values a region's cells currently hold, in scan order. -/
def regionValues (psize : Nat) (g : List Nat) (coords : List (Nat × Nat)) : List Nat :=
  coords.map (fun rc => getCell psize g rc.1 rc.2)

/-- The candidate values `1..psize`, in the order `for (num = 1; num <= psize; ...)`
of the source. -/
def oneTo (psize : Nat) : List Nat :=
  List.range' 1 psize

/-- One region step of the completion loop (`missingCount`/`missingCol`
bookkeeping of `checkPuzzle`): if the region has exactly one empty cell,
write there the first value of `1..psize` not among the region's non-zero
entries (the `!present[num]` break); otherwise leave the grid alone.
Returns the grid and whether a fill happened (the `progress` flag). -/
def fillRegion (psize : Nat) (g : List Nat) (coords : List (Nat × Nat)) :
    List Nat × Bool :=
  match coords.filter (fun rc => getCell psize g rc.1 rc.2 == 0) with
  | [rc] =>
    match (oneTo psize).find?
        (fun v => !((regionValues psize g coords).filter (fun x => x != 0)).contains v) with
    | some v => (setCell psize g rc.1 rc.2 v, true)
    | none => (g, false)
  | _ => (g, false)

/-- One region of a pass: update the grid by `fillRegion` and accumulate the
`progress` flag. -/
def passStep (psize : Nat) (acc : List Nat × Bool) (coords : List (Nat × Nat)) :
    List Nat × Bool :=
  let r := fillRegion psize acc.1 coords
  (r.1, acc.2 || r.2)

/-- One full pass of the `do ... while (progress)` loop: rows, then columns,
then boxes, each region seeing the fills of earlier regions in the same pass.
Returns the updated grid and the `progress` flag. -/
def fullPass (psize n : Nat) (g : List Nat) : List Nat × Bool :=
  (allRegionCoords psize n).foldl (passStep psize) (g, false)

/-- Number of empty (zero) entries of the flat grid; when
`g.length = psize * psize` this is exactly the number of empty cells. -/
def emptyCount (g : List Nat) : Nat :=
  g.countP (fun v => v == 0)

/-- The completion loop with an explicit iteration bound (the C loop has none;
the termination theorem shows a bound of `emptyCount g + 1` always suffices
because each fill strictly decreases `emptyCount`). -/
def completeLoopAux (psize n : Nat) : Nat → List Nat → List Nat
  | 0, g => g
  | fuel + 1, g =>
    let r := fullPass psize n g
    if r.2 then completeLoopAux psize n fuel r.1 else r.1

/-- The completion engine: iterate full passes until one makes no fill. -/
def completePuzzle (psize n : Nat) (g : List Nat) : List Nat :=
  completeLoopAux psize n (emptyCount g + 1) g

/-- The official cells `(1..psize) × (1..psize)`, row-major. -/
def allCells (psize : Nat) : List (Nat × Nat) :=
  (List.range psize).flatMap (fun r => (List.range psize).map (fun c => (r + 1, c + 1)))

/-- The completeness scan of `checkPuzzle`: no official cell is 0. -/
def isCompleteGrid (psize : Nat) (g : List Nat) : Bool :=
  (allCells psize).all (fun rc => getCell psize g rc.1 rc.2 != 0)

/-- The per-region scan of `validateRegion`: walk the region's values with a
`found` array of `psize + 1` booleans; an out-of-range value or an
already-found value stops the scan with result `invalid`. -/
def validateScan (psize : Nat) : List Nat → List Bool → Bool
  | [], _ => true
  | num :: rest, found =>
    if num < 1 || psize < num then false
    else if found.getD num false then false
    else validateScan psize rest (found.set num true)

/-- The indices at which `validateScan` touches its `found` array: `num` is
read (and possibly written) only after the `num < 1 || num > psize` test has
passed. -/
def scanAccesses (psize : Nat) : List Nat → List Bool → List Nat
  | [], _ => []
  | num :: rest, found =>
    if num < 1 || psize < num then []
    else if found.getD num false then [num]
    else num :: scanAccesses psize rest (found.set num true)

/-- The indices at which a completion sub-pass touches its `present` array:
`present[num]` is written exactly for the non-zero values scanned (a zero
takes the `missingCount++` branch instead). -/
def presentWrites (vals : List Nat) : List Nat :=
  vals.filter (fun v => v != 0)

/-- The `validateRegion` routine of the source, for one region given by its coordinates:
scan with an all-false `found` array of size `psize + 1` (`calloc(psize+1)`). -/
def validateRegion (psize : Nat) (g : List Nat) (coords : List (Nat × Nat)) : Bool :=
  validateScan psize (regionValues psize g coords) (List.replicate (psize + 1) false)

/-- The multithreaded validation phase: one `validateRegion` task per region,
results aggregated by AND (`overallValid`). -/
def validateAll (psize n : Nat) (g : List Nat) : Bool :=
  (allRegionCoords psize n).all (fun coords => validateRegion psize g coords)

/-- The `checkPuzzle` routine: run the completion loop, compute `complete`; if incomplete,
report `valid = false` without running validation; otherwise `valid` is the
AND of all 3N region checks.  Returns `(complete, valid, final grid)`. -/
def checkPuzzle (psize : Nat) (g : List Nat) : Bool × Bool × List Nat :=
  let n := boxDim psize
  let g1 := completePuzzle psize n g
  if isCompleteGrid psize g1 then (true, validateAll psize n g1, g1)
  else (false, false, g1)

/-- A solved 4×4 grid, for concrete instances. -/
def solved4 : List Nat :=
  [1, 2, 3, 4, 3, 4, 1, 2, 2, 1, 4, 3, 4, 3, 2, 1]

/-- The solved 4×4 grid with its top-left cell emptied. -/
def solved4Hole : List Nat :=
  [0, 2, 3, 4, 3, 4, 1, 2, 2, 1, 4, 3, 4, 3, 2, 1]

/-- An all-empty 4×4 grid. -/
def empty4 : List Nat :=
  List.replicate 16 0

/-- A 9×9 grid whose third row is `1..9` with the 5 removed (other rows all
ones), for concrete instances about one region. -/
def rowGrid9 : List Nat :=
  [1, 1, 1, 1, 1, 1, 1, 1, 1,
   1, 1, 1, 1, 1, 1, 1, 1, 1,
   1, 2, 3, 4, 0, 6, 7, 8, 9,
   1, 1, 1, 1, 1, 1, 1, 1, 1,
   1, 1, 1, 1, 1, 1, 1, 1, 1,
   1, 1, 1, 1, 1, 1, 1, 1, 1,
   1, 1, 1, 1, 1, 1, 1, 1, 1,
   1, 1, 1, 1, 1, 1, 1, 1, 1,
   1, 1, 1, 1, 1, 1, 1, 1, 1]

/-- A 4×4 row holding duplicated values `2, 2, 3` and one empty cell. -/
def dupRow4 : List Nat :=
  [2, 2, 3, 0]

/-! ### Basic facts about the flat grid -/

theorem length_setCell (psize : Nat) (g : List Nat) (r c v : Nat) :
    (setCell psize g r c v).length = g.length :=
  List.length_set ..

/-- In-range coordinates give a flat index below `psize * psize`. -/
theorem cellIdx_lt (psize r c : Nat) (h1 : 1 ≤ r) (h2 : r ≤ psize) (h3 : 1 ≤ c)
    (h4 : c ≤ psize) : (r - 1) * psize + (c - 1) < psize * psize := by
  have hb : (r - 1) * psize ≤ (psize - 1) * psize :=
    Nat.mul_le_mul_right psize (by omega)
  have hc : (psize - 1) * psize = psize * psize - psize := Nat.sub_one_mul psize psize
  have hp : psize ≤ psize * psize := Nat.le_mul_of_pos_left psize (by omega)
  omega

/-- The flat index map is injective on in-range coordinates. -/
theorem cellIdx_inj (psize r c r' c' : Nat) (h1 : 1 ≤ r) (h2 : r ≤ psize)
    (h3 : 1 ≤ c) (h4 : c ≤ psize) (h5 : 1 ≤ r') (h6 : r' ≤ psize) (h7 : 1 ≤ c')
    (h8 : c' ≤ psize)
    (h : (r - 1) * psize + (c - 1) = (r' - 1) * psize + (c' - 1)) :
    r = r' ∧ c = c' := by
  have hp : 0 < psize := by omega
  rw [Nat.mul_comm (r - 1) psize, Nat.mul_comm (r' - 1) psize, Nat.add_comm (psize * (r - 1)),
    Nat.add_comm (psize * (r' - 1))] at h
  have hm : c - 1 = c' - 1 := by
    have hmod := congrArg (fun x => x % psize) h
    simpa [Nat.add_mul_mod_self_left, Nat.mod_eq_of_lt (show c - 1 < psize by omega),
      Nat.mod_eq_of_lt (show c' - 1 < psize by omega)] using hmod
  have hd : r - 1 = r' - 1 := by
    have hdiv := congrArg (fun x => x / psize) h
    simpa [Nat.add_mul_div_left _ _ hp, Nat.div_eq_of_lt (show c - 1 < psize by omega),
      Nat.div_eq_of_lt (show c' - 1 < psize by omega)] using hdiv
  omega

theorem getCell_eq_getElem (psize : Nat) (g : List Nat) (r c : Nat)
    (h : (r - 1) * psize + (c - 1) < g.length) :
    getCell psize g r c = g[(r - 1) * psize + (c - 1)] := by
  rw [getCell, List.getD_eq_getElem?_getD, List.getElem?_eq_getElem h, Option.getD_some]

theorem getCell_setCell_self (psize : Nat) (g : List Nat) (r c v : Nat)
    (h : (r - 1) * psize + (c - 1) < g.length) :
    getCell psize (setCell psize g r c v) r c = v := by
  rw [getCell, setCell, List.getD_eq_getElem?_getD, List.getElem?_set]
  simp [h]

theorem getCell_setCell_ne (psize : Nat) (g : List Nat) {r c r' c' : Nat} (v : Nat)
    (h1 : 1 ≤ r) (h2 : r ≤ psize) (h3 : 1 ≤ c) (h4 : c ≤ psize) (h5 : 1 ≤ r')
    (h6 : r' ≤ psize) (h7 : 1 ≤ c') (h8 : c' ≤ psize) (hne : (r, c) ≠ (r', c')) :
    getCell psize (setCell psize g r c v) r' c' = getCell psize g r' c' := by
  have hidx : (r - 1) * psize + (c - 1) ≠ (r' - 1) * psize + (c' - 1) := by
    intro he
    obtain ⟨e1, e2⟩ := cellIdx_inj psize r c r' c' h1 h2 h3 h4 h5 h6 h7 h8 he
    exact hne (by rw [e1, e2])
  rw [getCell, getCell, setCell, List.getD_eq_getElem?_getD, List.getD_eq_getElem?_getD,
    List.getElem?_set]
  simp [hidx]

theorem emptyCount_setCell_lt (psize : Nat) (g : List Nat) {r c v : Nat}
    (hlen : g.length = psize * psize)
    (h1 : 1 ≤ r) (h2 : r ≤ psize) (h3 : 1 ≤ c) (h4 : c ≤ psize)
    (hz : getCell psize g r c = 0) (hv : v ≠ 0) :
    emptyCount (setCell psize g r c v) < emptyCount g := by
  have hidx : (r - 1) * psize + (c - 1) < g.length := by
    rw [hlen]; exact cellIdx_lt psize r c h1 h2 h3 h4
  have hg : g[(r - 1) * psize + (c - 1)] = 0 := by
    rw [← getCell_eq_getElem psize g r c hidx]; exact hz
  have hpos : 0 < g.countP (fun x => x == 0) := by
    rw [List.countP_pos_iff]
    exact ⟨_, List.getElem_mem hidx, by simp [hg]⟩
  have hv' : (v == 0) = false := by simpa using hv
  rw [emptyCount, emptyCount, setCell, List.countP_set _ _ _ _ hidx, hg, hv']
  simp only [beq_self_eq_true, if_true, Bool.false_eq_true, if_false]
  omega

/-! ### Regions: coordinates in range and region sizes -/

/-- Predicate: `(row, col)` is an official (1-indexed) cell of the `psize × psize` grid. -/
def inRange (psize : Nat) (rc : Nat × Nat) : Prop :=
  1 ≤ rc.1 ∧ rc.1 ≤ psize ∧ 1 ≤ rc.2 ∧ rc.2 ≤ psize

theorem rowCoords_inRange (psize row : Nat) (h1 : 1 ≤ row) (h2 : row ≤ psize) :
    ∀ rc ∈ rowCoords psize row, inRange psize rc := by
  intro rc hrc
  obtain ⟨k, hk, rfl⟩ := List.mem_map.mp hrc
  have := List.mem_range.mp hk
  exact ⟨h1, h2, by omega, by omega⟩

theorem colCoords_inRange (psize col : Nat) (h1 : 1 ≤ col) (h2 : col ≤ psize) :
    ∀ rc ∈ colCoords psize col, inRange psize rc := by
  intro rc hrc
  obtain ⟨k, hk, rfl⟩ := List.mem_map.mp hrc
  have := List.mem_range.mp hk
  exact ⟨by omega, by omega, h1, h2⟩

theorem boxCoords_inRange (psize n i j : Nat) (hsq : n * n = psize) (hi : i < n)
    (hj : j < n) : ∀ rc ∈ boxCoords n i j, inRange psize rc := by
  intro rc hrc
  obtain ⟨dr, hdr, hrc⟩ := List.mem_flatMap.mp hrc
  obtain ⟨dc, hdc, rfl⟩ := List.mem_map.mp hrc
  have hdr' := List.mem_range.mp hdr
  have hdc' := List.mem_range.mp hdc
  have hin : i * n + n ≤ n * n := by
    have := Nat.mul_le_mul_right n (show i + 1 ≤ n by omega)
    simpa [Nat.succ_mul] using this
  have hjn : j * n + n ≤ n * n := by
    have := Nat.mul_le_mul_right n (show j + 1 ≤ n by omega)
    simpa [Nat.succ_mul] using this
  exact ⟨by omega, by omega, by omega, by omega⟩

theorem allRegionCoords_inRange (psize n : Nat) (hsq : n * n = psize) :
    ∀ coords ∈ allRegionCoords psize n, ∀ rc ∈ coords, inRange psize rc := by
  intro coords hc
  rcases List.mem_append.mp hc with hc' | hc'
  · rcases List.mem_append.mp hc' with hc'' | hc''
    · obtain ⟨r, hr, rfl⟩ := List.mem_map.mp hc''
      have := List.mem_range.mp hr
      exact rowCoords_inRange psize (r + 1) (by omega) (by omega)
    · obtain ⟨c, hcc, rfl⟩ := List.mem_map.mp hc''
      have := List.mem_range.mp hcc
      exact colCoords_inRange psize (c + 1) (by omega) (by omega)
  · obtain ⟨i, hi, hc''⟩ := List.mem_flatMap.mp hc'
    obtain ⟨j, hj, rfl⟩ := List.mem_map.mp hc''
    exact boxCoords_inRange psize n i j hsq (List.mem_range.mp hi) (List.mem_range.mp hj)

theorem sum_map_const_range (k m : Nat) :
    ((List.range k).map (fun _ => m)).sum = k * m := by
  induction k with
  | zero => simp
  | succ k ih =>
    rw [List.range_succ, List.map_append, List.sum_append, ih]
    simp [Nat.succ_mul]

theorem boxCoords_length (n i j : Nat) : (boxCoords n i j).length = n * n := by
  rw [boxCoords, List.length_flatMap]
  have he : (List.map (List.length ∘ fun dr =>
      (List.range n).map fun dc => (i * n + 1 + dr, j * n + 1 + dc)) (List.range n))
      = (List.range n).map (fun _ => n) := by
    simp [Function.comp_def]
  rw [he, sum_map_const_range]

theorem allRegionCoords_length (psize n : Nat) (hsq : n * n = psize) :
    ∀ coords ∈ allRegionCoords psize n, coords.length = psize := by
  intro coords hc
  rcases List.mem_append.mp hc with hc' | hc'
  · rcases List.mem_append.mp hc' with hc'' | hc''
    · obtain ⟨r, _, rfl⟩ := List.mem_map.mp hc''
      simp [rowCoords]
    · obtain ⟨c, _, rfl⟩ := List.mem_map.mp hc''
      simp [colCoords]
  · obtain ⟨i, _, hc''⟩ := List.mem_flatMap.mp hc'
    obtain ⟨j, _, rfl⟩ := List.mem_map.mp hc''
    rw [boxCoords_length, hsq]

/-! ### The completion step on one region -/

theorem fillRegion_false {psize : Nat} {g : List Nat} {coords : List (Nat × Nat)}
    {g1 : List Nat} (h : fillRegion psize g coords = (g1, false)) : g1 = g := by
  rw [fillRegion] at h
  split at h
  · split at h
    · exact absurd (congrArg Prod.snd h) (by simp)
    · exact (congrArg Prod.fst h).symm
  · exact (congrArg Prod.fst h).symm

theorem fillRegion_true {psize : Nat} {g : List Nat} {coords : List (Nat × Nat)}
    {g1 : List Nat} (h : fillRegion psize g coords = (g1, true)) :
    ∃ rc v, rc ∈ coords ∧ getCell psize g rc.1 rc.2 = 0 ∧ 1 ≤ v ∧ v ≤ psize ∧
      g1 = setCell psize g rc.1 rc.2 v := by
  rw [fillRegion] at h
  split at h
  next rc heq =>
    split at h
    next v hfind =>
      have hrc : rc ∈ coords.filter (fun rc => getCell psize g rc.1 rc.2 == 0) := by
        rw [heq]; exact List.mem_cons_self rc []
      have hmem := (List.mem_filter.mp hrc).1
      have hzero : getCell psize g rc.1 rc.2 = 0 := by
        have := (List.mem_filter.mp hrc).2
        simpa using this
      have hv : v ∈ oneTo psize := List.mem_of_find?_eq_some hfind
      rw [oneTo, List.mem_range'_1] at hv
      exact ⟨rc, v, hmem, hzero, hv.1, by omega, (congrArg Prod.fst h).symm⟩
    next => exact absurd (congrArg Prod.snd h) (by simp)
  next => exact absurd (congrArg Prod.snd h) (by simp)

/-- The invariant of one pass: folding `passStep` over regions whose cells are
in range keeps the grid length, never increases the empty count, returns the
grid unchanged when the progress flag comes back false, and strictly
decreases the empty count when the flag goes from false to true. -/
theorem foldl_passStep_spec (psize : Nat) (regions : List (List (Nat × Nat))) :
    ∀ (g : List Nat) (b : Bool),
      (∀ c ∈ regions, ∀ rc ∈ c, inRange psize rc) →
      g.length = psize * psize →
      (regions.foldl (passStep psize) (g, b)).1.length = g.length ∧
      emptyCount (regions.foldl (passStep psize) (g, b)).1 ≤ emptyCount g ∧
      ((regions.foldl (passStep psize) (g, b)).2 = false →
        (regions.foldl (passStep psize) (g, b)).1 = g ∧ b = false) ∧
      (b = false → (regions.foldl (passStep psize) (g, b)).2 = true →
        emptyCount (regions.foldl (passStep psize) (g, b)).1 < emptyCount g) := by
  induction regions with
  | nil =>
    intro g b _ _
    refine ⟨rfl, Nat.le_refl _, fun h => ⟨rfl, h⟩, fun hb h => absurd (hb ▸ h) (by simp)⟩
  | cons c rest ih =>
    intro g b hreg hlen
    rw [List.foldl_cons]
    have hstep : passStep psize (g, b) c
        = ((fillRegion psize g c).1, b || (fillRegion psize g c).2) := rfl
    rw [hstep]
    cases hfill : (fillRegion psize g c).2 with
    | false =>
      have hfg : (fillRegion psize g c).1 = g :=
        fillRegion_false (by rw [← hfill])
      rw [Bool.or_false, hfg]
      exact ih g b (fun c' hc' => hreg c' (List.mem_cons_of_mem c hc')) hlen
    | true =>
      obtain ⟨rc, v, hmem, hz, hv1, hv2, hg1⟩ :=
        fillRegion_true (show fillRegion psize g c = ((fillRegion psize g c).1, true) by
          rw [← hfill])
      have hrcr := hreg c (List.mem_cons_self c rest) rc hmem
      have hlt : emptyCount (fillRegion psize g c).1 < emptyCount g := by
        rw [hg1]
        exact emptyCount_setCell_lt psize g hlen hrcr.1 hrcr.2.1 hrcr.2.2.1 hrcr.2.2.2 hz
          (by omega)
      have hlen1 : (fillRegion psize g c).1.length = g.length := by
        rw [hg1, length_setCell]
      rw [Bool.or_true]
      obtain ⟨ihl, ihle, ihf, _⟩ :=
        ih (fillRegion psize g c).1 true
          (fun c' hc' => hreg c' (List.mem_cons_of_mem c hc')) (hlen1.trans hlen)
      refine ⟨ihl.trans hlen1, Nat.le_trans ihle (Nat.le_of_lt hlt), ?_, ?_⟩
      · intro hf
        exact absurd (ihf hf).2 (by simp)
      · intro _ _
        exact Nat.lt_of_le_of_lt ihle hlt

theorem fullPass_length (psize n : Nat) (g : List Nat) (hsq : n * n = psize)
    (hlen : g.length = psize * psize) : (fullPass psize n g).1.length = g.length := by
  rw [fullPass]
  exact (foldl_passStep_spec psize (allRegionCoords psize n) g false
    (allRegionCoords_inRange psize n hsq) hlen).1

theorem fullPass_false (psize n : Nat) (g : List Nat) (hsq : n * n = psize)
    (hlen : g.length = psize * psize) (h : (fullPass psize n g).2 = false) :
    (fullPass psize n g).1 = g := by
  rw [fullPass] at h ⊢
  exact ((foldl_passStep_spec psize (allRegionCoords psize n) g false
    (allRegionCoords_inRange psize n hsq) hlen).2.2.1 h).1

theorem fullPass_true (psize n : Nat) (g : List Nat) (hsq : n * n = psize)
    (hlen : g.length = psize * psize) (h : (fullPass psize n g).2 = true) :
    emptyCount (fullPass psize n g).1 < emptyCount g := by
  rw [fullPass] at h ⊢
  exact (foldl_passStep_spec psize (allRegionCoords psize n) g false
    (allRegionCoords_inRange psize n hsq) hlen).2.2.2 rfl h

/-! ### The completion loop terminates in a fixed point -/

theorem completeLoopAux_spec (psize n : Nat) (hsq : n * n = psize) :
    ∀ (fuel : Nat) (g : List Nat), g.length = psize * psize → emptyCount g < fuel →
      (completeLoopAux psize n fuel g).length = g.length ∧
      fullPass psize n (completeLoopAux psize n fuel g)
        = (completeLoopAux psize n fuel g, false) := by
  intro fuel
  induction fuel with
  | zero => intro g _ h; omega
  | succ fuel ih =>
    intro g hlen hcnt
    rw [completeLoopAux]
    cases hp : (fullPass psize n g).2 with
    | false =>
      have hfg := fullPass_false psize n g hsq hlen hp
      simp only [hp, Bool.false_eq_true, if_false]
      refine ⟨by rw [hfg], ?_⟩
      have heta : fullPass psize n g = ((fullPass psize n g).1, (fullPass psize n g).2) := rfl
      rw [hfg, heta, hp, hfg]
    | true =>
      have hlt := fullPass_true psize n g hsq hlen hp
      have hlen1 : (fullPass psize n g).1.length = psize * psize :=
        (fullPass_length psize n g hsq hlen).trans hlen
      simp only [hp, if_true]
      have hrec := ih (fullPass psize n g).1 hlen1 (by omega)
      exact ⟨hrec.1.trans (fullPass_length psize n g hsq hlen), hrec.2⟩

theorem completePuzzle_length (psize n : Nat) (g : List Nat) (hsq : n * n = psize)
    (hlen : g.length = psize * psize) : (completePuzzle psize n g).length = g.length :=
  (completeLoopAux_spec psize n hsq (emptyCount g + 1) g hlen (Nat.lt_succ_self _)).1

theorem completePuzzle_fixedPoint (psize n : Nat) (g : List Nat) (hsq : n * n = psize)
    (hlen : g.length = psize * psize) :
    fullPass psize n (completePuzzle psize n g) = (completePuzzle psize n g, false) :=
  (completeLoopAux_spec psize n hsq (emptyCount g + 1) g hlen (Nat.lt_succ_self _)).2

theorem completePuzzle_of_fixed (psize n : Nat) (g : List Nat)
    (h : fullPass psize n g = (g, false)) : completePuzzle psize n g = g := by
  rw [completePuzzle, completeLoopAux, h]
  simp

/-! ### The completion engine writes only to empty cells -/

theorem fillRegion_preserves (psize : Nat) (g : List Nat) (coords : List (Nat × Nat))
    (hrc : ∀ rc ∈ coords, inRange psize rc) (r c : Nat)
    (h1 : 1 ≤ r) (h2 : r ≤ psize) (h3 : 1 ≤ c) (h4 : c ≤ psize)
    (hnz : getCell psize g r c ≠ 0) :
    getCell psize (fillRegion psize g coords).1 r c = getCell psize g r c := by
  cases hf : (fillRegion psize g coords).2 with
  | false =>
    rw [fillRegion_false (show fillRegion psize g coords
      = ((fillRegion psize g coords).1, false) by rw [← hf])]
  | true =>
    obtain ⟨rc0, v, hmem, hz, _, _, hg1⟩ :=
      fillRegion_true (show fillRegion psize g coords
        = ((fillRegion psize g coords).1, true) by rw [← hf])
    rw [hg1]
    have hr0 := hrc rc0 hmem
    apply getCell_setCell_ne psize g v hr0.1 hr0.2.1 hr0.2.2.1 hr0.2.2.2 h1 h2 h3 h4
    intro he
    have e1 : rc0.1 = r := congrArg Prod.fst he
    have e2 : rc0.2 = c := congrArg Prod.snd he
    rw [e1, e2] at hz
    exact hnz hz

theorem foldl_passStep_preserves (psize : Nat) (regions : List (List (Nat × Nat))) :
    ∀ (g : List Nat) (b : Bool) (r c : Nat),
      (∀ cs ∈ regions, ∀ rc ∈ cs, inRange psize rc) →
      1 ≤ r → r ≤ psize → 1 ≤ c → c ≤ psize → getCell psize g r c ≠ 0 →
      getCell psize (regions.foldl (passStep psize) (g, b)).1 r c
        = getCell psize g r c := by
  induction regions with
  | nil => intro g b r c _ _ _ _ _ _; rfl
  | cons cs rest ih =>
    intro g b r c hreg h1 h2 h3 h4 hnz
    rw [List.foldl_cons]
    have hstep : passStep psize (g, b) cs
        = ((fillRegion psize g cs).1, b || (fillRegion psize g cs).2) := rfl
    rw [hstep]
    have hpres := fillRegion_preserves psize g cs (hreg cs (List.mem_cons_self cs rest))
      r c h1 h2 h3 h4 hnz
    have hnz1 : getCell psize (fillRegion psize g cs).1 r c ≠ 0 := by
      rw [hpres]; exact hnz
    rw [ih (fillRegion psize g cs).1 _ r c
      (fun cs' h' => hreg cs' (List.mem_cons_of_mem cs h')) h1 h2 h3 h4 hnz1, hpres]

theorem completeLoopAux_preserves (psize n : Nat) (hsq : n * n = psize) :
    ∀ (fuel : Nat) (g : List Nat) (r c : Nat),
      1 ≤ r → r ≤ psize → 1 ≤ c → c ≤ psize → getCell psize g r c ≠ 0 →
      getCell psize (completeLoopAux psize n fuel g) r c = getCell psize g r c := by
  intro fuel
  induction fuel with
  | zero => intro g r c _ _ _ _ _; rfl
  | succ fuel ih =>
    intro g r c h1 h2 h3 h4 hnz
    rw [completeLoopAux]
    have hfp : getCell psize (fullPass psize n g).1 r c = getCell psize g r c := by
      rw [fullPass]
      exact foldl_passStep_preserves psize (allRegionCoords psize n) g false r c
        (allRegionCoords_inRange psize n hsq) h1 h2 h3 h4 hnz
    cases hp : (fullPass psize n g).2 with
    | false => simpa only [hp, Bool.false_eq_true, if_false] using hfp
    | true =>
      simp only [hp, if_true]
      have hnz1 : getCell psize (fullPass psize n g).1 r c ≠ 0 := by
        rw [hfp]; exact hnz
      rw [ih (fullPass psize n g).1 r c h1 h2 h3 h4 hnz1, hfp]

theorem completePuzzle_preserves (psize n : Nat) (g : List Nat) (hsq : n * n = psize)
    (r c : Nat) (h1 : 1 ≤ r) (h2 : r ≤ psize) (h3 : 1 ≤ c) (h4 : c ≤ psize)
    (hnz : getCell psize g r c ≠ 0) :
    getCell psize (completePuzzle psize n g) r c = getCell psize g r c :=
  completeLoopAux_preserves psize n hsq (emptyCount g + 1) g r c h1 h2 h3 h4 hnz

/-! ### Complete grids -/

theorem mem_allCells (psize : Nat) (rc : Nat × Nat) :
    rc ∈ allCells psize ↔ inRange psize rc := by
  rcases rc with ⟨a, b⟩
  rw [allCells]
  constructor
  · intro h
    obtain ⟨r, hr, h'⟩ := List.mem_flatMap.mp h
    obtain ⟨c, hc, he⟩ := List.mem_map.mp h'
    have hr' := List.mem_range.mp hr
    have hc' := List.mem_range.mp hc
    have e1 : r + 1 = a := congrArg Prod.fst he
    have e2 : c + 1 = b := congrArg Prod.snd he
    exact ⟨by omega, by omega, by omega, by omega⟩
  · rintro ⟨ha1, ha2, hb1, hb2⟩
    refine List.mem_flatMap.mpr ⟨a - 1, List.mem_range.mpr (by omega), ?_⟩
    refine List.mem_map.mpr ⟨b - 1, List.mem_range.mpr (by omega), ?_⟩
    have e1 : a - 1 + 1 = a := by omega
    have e2 : b - 1 + 1 = b := by omega
    rw [e1, e2]

theorem isCompleteGrid_eq_true_iff (psize : Nat) (g : List Nat) :
    isCompleteGrid psize g = true ↔
      ∀ rc, inRange psize rc → getCell psize g rc.1 rc.2 ≠ 0 := by
  rw [isCompleteGrid, List.all_eq_true]
  constructor
  · intro h rc hin
    have := h rc ((mem_allCells psize rc).mpr hin)
    simpa using this
  · intro h rc hrc
    simpa using h rc ((mem_allCells psize rc).mp hrc)

theorem emptyCount_zero_nonzero (psize : Nat) (g : List Nat)
    (hlen : g.length = psize * psize) (h0 : emptyCount g = 0) :
    ∀ rc, inRange psize rc → getCell psize g rc.1 rc.2 ≠ 0 := by
  intro rc hin
  have hidx : (rc.1 - 1) * psize + (rc.2 - 1) < g.length := by
    rw [hlen]; exact cellIdx_lt psize _ _ hin.1 hin.2.1 hin.2.2.1 hin.2.2.2
  rw [getCell_eq_getElem psize g rc.1 rc.2 hidx]
  rw [emptyCount] at h0
  have hall := List.countP_eq_zero.mp h0
  intro hz
  exact absurd (by simp [hz]) (hall _ (List.getElem_mem hidx))

theorem fullPass_of_complete (psize n : Nat) (g : List Nat) (hsq : n * n = psize)
    (hlen : g.length = psize * psize) (h0 : emptyCount g = 0) :
    fullPass psize n g = (g, false) := by
  rw [fullPass]
  have hfill : ∀ c ∈ allRegionCoords psize n, fillRegion psize g c = (g, false) := by
    intro c hc
    have hnil : c.filter (fun rc => getCell psize g rc.1 rc.2 == 0) = [] := by
      rw [List.filter_eq_nil_iff]
      intro rc hrc
      have := emptyCount_zero_nonzero psize g hlen h0 rc
        (allRegionCoords_inRange psize n hsq c hc rc hrc)
      simpa using this
    rw [fillRegion, hnil]
  have hgen : ∀ (regions : List (List (Nat × Nat))) (b : Bool),
      (∀ c ∈ regions, fillRegion psize g c = (g, false)) →
      regions.foldl (passStep psize) (g, b) = (g, b) := by
    intro regions
    induction regions with
    | nil => intro b _; rfl
    | cons c rest ih =>
      intro b h
      rw [List.foldl_cons]
      have hone : passStep psize (g, b) c = (g, b) := by
        simp [passStep, h c (List.mem_cons_self c rest)]
      rw [hone]
      exact ih b (fun c' h' => h c' (List.mem_cons_of_mem c h'))
  exact hgen _ false hfill

theorem completePuzzle_of_complete (psize n : Nat) (g : List Nat) (hsq : n * n = psize)
    (hlen : g.length = psize * psize) (h0 : emptyCount g = 0) :
    completePuzzle psize n g = g :=
  completePuzzle_of_fixed psize n g (fullPass_of_complete psize n g hsq hlen h0)

/-! ### The two branches of checkPuzzle -/

theorem checkPuzzle_eq_of_complete {psize : Nat} {g : List Nat}
    (h : isCompleteGrid psize (completePuzzle psize (boxDim psize) g) = true) :
    checkPuzzle psize g = (true,
      validateAll psize (boxDim psize) (completePuzzle psize (boxDim psize) g),
      completePuzzle psize (boxDim psize) g) := by
  rw [checkPuzzle]
  simp [h]

theorem checkPuzzle_eq_of_incomplete {psize : Nat} {g : List Nat}
    (h : isCompleteGrid psize (completePuzzle psize (boxDim psize) g) = false) :
    checkPuzzle psize g = (false, false, completePuzzle psize (boxDim psize) g) := by
  rw [checkPuzzle]
  simp [h]

/-! ### The per-region validation scan -/

theorem getD_set_self {α : Type} (l : List α) (i : Nat) (b d : α) (h : i < l.length) :
    (l.set i b).getD i d = b := by
  rw [List.getD_eq_getElem?_getD, List.getElem?_set]
  simp [h]

theorem getD_set_ne {α : Type} (l : List α) (i j : Nat) (b d : α) (h : i ≠ j) :
    (l.set i b).getD j d = l.getD j d := by
  rw [List.getD_eq_getElem?_getD, List.getD_eq_getElem?_getD, List.getElem?_set]
  simp [h]

theorem getD_replicate_false (n i : Nat) :
    (List.replicate n false).getD i false = false := by
  rcases Nat.lt_or_ge i n with h | h
  · rw [List.getD_eq_getElem?_getD,
      List.getElem?_eq_getElem (by simpa using h), Option.getD_some,
      List.getElem_replicate]
  · rw [List.getD_eq_default _ _ (by simpa using h)]

/-- The scan returns `valid` exactly when the values are pairwise distinct,
all in `1..psize`, and none is already marked in the `found` array. -/
theorem validateScan_iff (psize : Nat) :
    ∀ (nums : List Nat) (found : List Bool), found.length = psize + 1 →
      (validateScan psize nums found = true ↔
        nums.Nodup ∧ ∀ v ∈ nums, (1 ≤ v ∧ v ≤ psize) ∧ found.getD v false = false) := by
  intro nums
  induction nums with
  | nil =>
    intro found _
    simp [validateScan]
  | cons num rest ih =>
    intro found hflen
    rw [validateScan]
    split
    next hcond =>
      have hcond' : num < 1 ∨ psize < num := by simpa using hcond
      constructor
      · intro h; exact absurd h (by simp)
      · rintro ⟨-, hall⟩
        have := (hall num (List.mem_cons_self _ _)).1
        omega
    next hcond =>
      have hcond' : 1 ≤ num ∧ num ≤ psize := by
        simp only [Bool.or_eq_true, decide_eq_true_eq, not_or] at hcond
        omega
      split
      next hfound =>
        constructor
        · intro h; exact absurd h (by simp)
        · rintro ⟨-, hall⟩
          have hf := (hall num (List.mem_cons_self _ _)).2
          rw [hf] at hfound
          exact absurd hfound (by simp)
      next hfound =>
        have hfound' : found.getD num false = false := by
          cases hgd : found.getD num false
          · rfl
          · exact absurd hgd hfound
        have hnum_lt : num < found.length := by omega
        rw [ih (found.set num true) (by rw [List.length_set]; exact hflen)]
        constructor
        · rintro ⟨hnd, hall⟩
          have hnotmem : num ∉ rest := by
            intro hmem
            have hgd := (hall num hmem).2
            rw [getD_set_self found num true false hnum_lt] at hgd
            exact absurd hgd (by simp)
          refine ⟨List.nodup_cons.mpr ⟨hnotmem, hnd⟩, ?_⟩
          intro v hv
          rcases List.mem_cons.mp hv with rfl | hv'
          · exact ⟨hcond', hfound'⟩
          · have h1 := hall v hv'
            have hvne : num ≠ v := fun he => hnotmem (he ▸ hv')
            rw [getD_set_ne found num v true false hvne] at h1
            exact h1
        · rintro ⟨hnd, hall⟩
          have hnotmem : num ∉ rest := (List.nodup_cons.mp hnd).1
          refine ⟨(List.nodup_cons.mp hnd).2, ?_⟩
          intro v hv
          have h1 := hall v (List.mem_cons_of_mem num hv)
          have hvne : num ≠ v := fun he => hnotmem (he ▸ hv)
          rw [getD_set_ne found num v true false hvne]
          exact h1

theorem oneTo_nodup (psize : Nat) : (oneTo psize).Nodup := List.nodup_range' 1 psize

theorem oneTo_length (psize : Nat) : (oneTo psize).length = psize := by
  simp [oneTo]

theorem mem_oneTo {psize v : Nat} : v ∈ oneTo psize ↔ 1 ≤ v ∧ v ≤ psize := by
  rw [oneTo, List.mem_range'_1]
  omega

theorem regionValues_length (psize : Nat) (g : List Nat) (coords : List (Nat × Nat)) :
    (regionValues psize g coords).length = coords.length :=
  List.length_map ..

/-- A region of `psize` cells passes validation iff its values are a
permutation of `1..psize`. -/
theorem validateRegion_eq_true_iff (psize : Nat) (g : List Nat)
    (coords : List (Nat × Nat)) (hcl : coords.length = psize) :
    validateRegion psize g coords = true ↔
      (regionValues psize g coords).Perm (oneTo psize) := by
  rw [validateRegion, validateScan_iff psize _ _ (by simp)]
  constructor
  · rintro ⟨hnd, hall⟩
    apply List.Subperm.perm_of_length_le
    · exact List.subperm_of_subset hnd (fun v hv => mem_oneTo.mpr (hall v hv).1)
    · rw [oneTo_length, regionValues_length, hcl]
  · intro hperm
    refine ⟨hperm.nodup_iff.mpr (oneTo_nodup psize), ?_⟩
    intro v hv
    exact ⟨mem_oneTo.mp (hperm.mem_iff.mp hv), getD_replicate_false _ _⟩

theorem perm_all_eq {α : Type} {l1 l2 : List α} (h : l1.Perm l2) (p : α → Bool) :
    l1.all p = l2.all p := by
  apply Bool.eq_iff_iff.mpr
  simp only [List.all_eq_true]
  constructor
  · intro ha x hx; exact ha x (h.mem_iff.mpr hx)
  · intro ha x hx; exact ha x (h.mem_iff.mp hx)

/-! ### The first missing candidate found by the `num = 1..psize` search -/

theorem find?_range'_spec (p : Nat → Bool) :
    ∀ (k a v : Nat), (List.range' a k).find? p = some v →
      p v = true ∧ a ≤ v ∧ v < a + k ∧ ∀ w, a ≤ w → w < v → p w = false := by
  intro k
  induction k with
  | zero => intro a v h; simp at h
  | succ k ih =>
    intro a v h
    rw [List.range'_succ] at h
    by_cases hpa : p a = true
    · rw [List.find?_cons_of_pos _ hpa] at h
      injection h with h
      subst h
      exact ⟨hpa, Nat.le_refl a, by omega, fun w hw1 hw2 => by omega⟩
    · rw [List.find?_cons_of_neg _ hpa] at h
      obtain ⟨h1, h2, h3, h4⟩ := ih (a + 1) v h
      refine ⟨h1, by omega, by omega, ?_⟩
      intro w hw1 hw2
      rcases Nat.eq_or_lt_of_le hw1 with rfl | hlt
      · simpa using hpa
      · exact h4 w (by omega) hw2

theorem find?_range'_exists (p : Nat → Bool) (k a x : Nat) (hx : x ∈ List.range' a k)
    (hp : p x = true) : ∃ v, (List.range' a k).find? p = some v :=
  Option.isSome_iff_exists.mp (List.find?_isSome.mpr ⟨x, hx, hp⟩)

theorem countP_not_add {α : Type} (p : α → Bool) (l : List α) :
    l.countP p + l.countP (fun a => !(p a)) = l.length := by
  induction l with
  | nil => rfl
  | cons a l ih =>
    rw [List.countP_cons, List.countP_cons, List.length_cons]
    cases hpa : p a <;> simp [hpa] <;> omega

/-- In a region of `psize` cells with exactly one empty cell, exactly
`psize - 1` values are non-zero. -/
theorem nonzeroVals_length (psize : Nat) (g : List Nat) (coords : List (Nat × Nat))
    (rc : Nat × Nat) (hcl : coords.length = psize)
    (hone : coords.filter (fun x => getCell psize g x.1 x.2 == 0) = [rc]) :
    ((regionValues psize g coords).filter (fun x => x != 0)).length = psize - 1 := by
  have hcount0 : (regionValues psize g coords).countP (fun x => x == 0) = 1 := by
    rw [regionValues, List.countP_map]
    have hcomp : ((fun x => x == 0) ∘ fun rc : Nat × Nat => getCell psize g rc.1 rc.2)
        = fun rc : Nat × Nat => getCell psize g rc.1 rc.2 == 0 := rfl
    rw [hcomp, List.countP_eq_length_filter, hone]
    rfl
  have hvlen : (regionValues psize g coords).length = psize := by
    rw [regionValues_length, hcl]
  have hsum := countP_not_add (fun x => x == 0) (regionValues psize g coords)
  have heq : (fun x : Nat => x != 0) = (fun x : Nat => !(x == 0)) := rfl
  rw [← List.countP_eq_length_filter, heq]
  omega

/-- If a region's `psize - 1` non-zero values are distinct, lie in
`1..psize`, and miss `m`, then they contain every other value of
`1..psize`: the missing value is unique. -/
theorem missing_unique (psize : Nat) (vals : List Nat) (m : Nat)
    (hnd : vals.Nodup) (hsub : ∀ v ∈ vals, 1 ≤ v ∧ v ≤ psize)
    (hm1 : 1 ≤ m) (hm2 : m ≤ psize) (hmn : m ∉ vals)
    (hlen : vals.length = psize - 1) :
    ∀ w, 1 ≤ w → w ≤ psize → w ≠ m → w ∈ vals := by
  have hm_mem : m ∈ oneTo psize := mem_oneTo.mpr ⟨hm1, hm2⟩
  have hsub' : vals ⊆ (oneTo psize).erase m := by
    intro x hx
    have hxm : x ≠ m := fun he => hmn (he ▸ hx)
    rw [List.mem_erase_of_ne hxm]
    exact mem_oneTo.mpr (hsub x hx)
  have hel : ((oneTo psize).erase m).length = psize - 1 := by
    rw [List.length_erase_of_mem hm_mem, oneTo_length]
  have hperm : vals.Perm ((oneTo psize).erase m) :=
    (List.subperm_of_subset hnd hsub').perm_of_length_le (by omega)
  intro w hw1 hw2 hwm
  exact hperm.mem_iff.mpr ((List.mem_erase_of_ne hwm).mpr (mem_oneTo.mpr ⟨hw1, hw2⟩))

theorem find?_oneTo_spec (p : Nat → Bool) (psize v : Nat)
    (h : (oneTo psize).find? p = some v) :
    p v = true ∧ 1 ≤ v ∧ v ≤ psize ∧ ∀ w, 1 ≤ w → w < v → p w = false := by
  rw [oneTo] at h
  obtain ⟨h1, h2, h3, h4⟩ := find?_range'_spec p psize 1 v h
  exact ⟨h1, h2, by omega, h4⟩

theorem find?_oneTo_exists (p : Nat → Bool) (psize x : Nat) (hx : x ∈ oneTo psize)
    (hp : p x = true) : ∃ v, (oneTo psize).find? p = some v := by
  rw [oneTo] at hx ⊢
  exact find?_range'_exists p psize 1 x hx hp

/-- When the `psize - 1` distinct non-zero values of a region miss exactly the
value `m`, the `num = 1..psize` search stops at `m`. -/
theorem find_first_missing (psize : Nat) (vals : List Nat) (m : Nat)
    (hnd : vals.Nodup) (hsub : ∀ v ∈ vals, 1 ≤ v ∧ v ≤ psize)
    (hm1 : 1 ≤ m) (hm2 : m ≤ psize) (hmn : m ∉ vals)
    (hlenv : vals.length = psize - 1) :
    (oneTo psize).find? (fun v => !(vals.contains v)) = some m := by
  have hothers := missing_unique psize vals m hnd hsub hm1 hm2 hmn hlenv
  have hpm : (!(vals.contains m)) = true := by simp [hmn]
  obtain ⟨v, hv⟩ :=
    find?_oneTo_exists (fun v => !(vals.contains v)) psize m
      (mem_oneTo.mpr ⟨hm1, hm2⟩) hpm
  obtain ⟨h1, h2, h3, h4⟩ := find?_oneTo_spec _ psize v hv
  have hvm : v = m := by
    by_contra hne
    have hv_in : v ∈ vals := hothers v h2 h3 hne
    have hv_out : v ∉ vals := by simpa using h1
    exact hv_out hv_in
  rw [hvm] at hv
  exact hv

/-! ### The claims -/

/-- C2: for every input grid, whenever `checkPuzzle` reports
`complete = false` it also reports `valid = false` — the early return of the
incomplete branch assigns `false`, so validation is never consulted. -/
theorem C2_incomplete_implies_invalid (psize : Nat) (g : List Nat)
    (h : (checkPuzzle psize g).1 = false) : (checkPuzzle psize g).2.1 = false := by
  cases hB : isCompleteGrid psize (completePuzzle psize (boxDim psize) g) with
  | false => rw [checkPuzzle_eq_of_incomplete hB]
  | true =>
    rw [checkPuzzle_eq_of_complete hB] at h
    exact absurd h (by simp)

theorem C2_incomplete_implies_invalid_witness :
    (checkPuzzle 4 empty4).1 = false ∧ (checkPuzzle 4 empty4).2.1 = false :=
  ⟨by decide, C2_incomplete_implies_invalid 4 empty4 (by decide)⟩

/-- C3 as stated is false on the code: this input grid has its cell (1,1)
equal to 0, yet `checkPuzzle` reports `complete = true` (and `valid = true`),
because the completion engine fills the empty cell before the completeness
check. -/
theorem C3_counterexample :
    getCell 4 solved4Hole 1 1 = 0 ∧
    (checkPuzzle 4 solved4Hole).1 = true ∧
    (checkPuzzle 4 solved4Hole).2.1 = true := by
  decide

/-- C3 amended: for every input grid with an official cell still equal to 0
after the completion phase, `checkPuzzle` reports `complete = false` and
`valid = false`, regardless of the contents of the regions. -/
theorem C3_amended_zero_after_completion (psize : Nat) (g : List Nat) (r c : Nat)
    (h1 : 1 ≤ r) (h2 : r ≤ psize) (h3 : 1 ≤ c) (h4 : c ≤ psize)
    (hz : getCell psize (checkPuzzle psize g).2.2 r c = 0) :
    (checkPuzzle psize g).1 = false ∧ (checkPuzzle psize g).2.1 = false := by
  cases hB : isCompleteGrid psize (completePuzzle psize (boxDim psize) g) with
  | false =>
    rw [checkPuzzle_eq_of_incomplete hB]
    exact ⟨rfl, rfl⟩
  | true =>
    rw [checkPuzzle_eq_of_complete hB] at hz
    have hnz := (isCompleteGrid_eq_true_iff psize _).mp hB (r, c) ⟨h1, h2, h3, h4⟩
    exact absurd hz hnz

theorem C3_amended_zero_after_completion_witness :
    (checkPuzzle 4 empty4).1 = false ∧ (checkPuzzle 4 empty4).2.1 = false :=
  C3_amended_zero_after_completion 4 empty4 3 2 (by decide) (by decide) (by decide)
    (by decide) (by decide)

/-- C6: the completion engine is idempotent — running it twice produces the
same grid as running it once — because the grid it reaches is a fixed point
of a further full pass (a pass that makes no fills). -/
theorem C6_completion_idempotent (psize n : Nat) (g : List Nat) (hsq : n * n = psize)
    (hlen : g.length = psize * psize) :
    completePuzzle psize n (completePuzzle psize n g) = completePuzzle psize n g ∧
    fullPass psize n (completePuzzle psize n g) = (completePuzzle psize n g, false) :=
  ⟨completePuzzle_of_fixed psize n _ (completePuzzle_fixedPoint psize n g hsq hlen),
    completePuzzle_fixedPoint psize n g hsq hlen⟩

theorem C6_completion_idempotent_witness :
    completePuzzle 4 2 (completePuzzle 4 2 solved4Hole) = completePuzzle 4 2 solved4Hole ∧
    fullPass 4 2 (completePuzzle 4 2 solved4Hole)
      = (completePuzzle 4 2 solved4Hole, false) :=
  C6_completion_idempotent 4 2 solved4Hole (by decide) (by decide)

/-- C7: `checkPuzzle` never changes a cell whose input value is non-zero
(the completion engine writes only to empty cells, and validation does not
write), and an input grid with no empty cell is returned exactly as given. -/
theorem C7_nonzero_cells_preserved (psize : Nat) (g : List Nat)
    (hsq : boxDim psize * boxDim psize = psize) (hlen : g.length = psize * psize) :
    (∀ r c, 1 ≤ r → r ≤ psize → 1 ≤ c → c ≤ psize →
      getCell psize g r c ≠ 0 →
      getCell psize (checkPuzzle psize g).2.2 r c = getCell psize g r c) ∧
    (emptyCount g = 0 → (checkPuzzle psize g).2.2 = g) := by
  have hgrid : (checkPuzzle psize g).2.2 = completePuzzle psize (boxDim psize) g := by
    cases hB : isCompleteGrid psize (completePuzzle psize (boxDim psize) g) with
    | false => rw [checkPuzzle_eq_of_incomplete hB]
    | true => rw [checkPuzzle_eq_of_complete hB]
  constructor
  · intro r c h1 h2 h3 h4 hnz
    rw [hgrid]
    exact completePuzzle_preserves psize (boxDim psize) g hsq r c h1 h2 h3 h4 hnz
  · intro h0
    rw [hgrid]
    exact completePuzzle_of_complete psize (boxDim psize) g hsq hlen h0

theorem C7_nonzero_cells_preserved_witness :
    (∀ r c, 1 ≤ r → r ≤ 4 → 1 ≤ c → c ≤ 4 →
      getCell 4 solved4 r c ≠ 0 →
      getCell 4 (checkPuzzle 4 solved4).2.2 r c = getCell 4 solved4 r c) ∧
    (emptyCount solved4 = 0 → (checkPuzzle 4 solved4).2.2 = solved4) :=
  C7_nonzero_cells_preserved 4 solved4 (by decide) (by decide)

/-- C4: the completion loop terminates — every fill of a region in a pass
writes a value of `1..psize` into a cell that was 0, strictly decreasing the
number of empty cells; a pass that reports progress strictly decreases the
empty count; and the grid the loop stops at is exactly a grid on which a
full pass performs zero fills. -/
theorem C4_completion_terminates (psize n : Nat) (g : List Nat) (hsq : n * n = psize)
    (hlen : g.length = psize * psize) :
    (∀ (g0 : List Nat) (coords : List (Nat × Nat)) (g1 : List Nat),
        coords ∈ allRegionCoords psize n → g0.length = psize * psize →
        fillRegion psize g0 coords = (g1, true) →
        ∃ rc v, rc ∈ coords ∧ getCell psize g0 rc.1 rc.2 = 0 ∧ 1 ≤ v ∧ v ≤ psize ∧
          g1 = setCell psize g0 rc.1 rc.2 v ∧ emptyCount g1 < emptyCount g0) ∧
    (∀ g1 : List Nat, fullPass psize n g = (g1, true) → emptyCount g1 < emptyCount g) ∧
    fullPass psize n (completePuzzle psize n g) = (completePuzzle psize n g, false) := by
  refine ⟨?_, ?_, completePuzzle_fixedPoint psize n g hsq hlen⟩
  · intro g0 coords g1 hc hl0 hf
    obtain ⟨rc, v, hmem, hz, hv1, hv2, hg1⟩ := fillRegion_true hf
    have hin := allRegionCoords_inRange psize n hsq coords hc rc hmem
    refine ⟨rc, v, hmem, hz, hv1, hv2, hg1, ?_⟩
    rw [hg1]
    exact emptyCount_setCell_lt psize g0 hl0 hin.1 hin.2.1 hin.2.2.1 hin.2.2.2 hz
      (by omega)
  · intro g1 hfp
    have h2 : (fullPass psize n g).2 = true := by rw [hfp]
    have h1 : (fullPass psize n g).1 = g1 := by rw [hfp]
    have := fullPass_true psize n g hsq hlen h2
    rwa [h1] at this

theorem C4_completion_terminates_witness :
    (∀ (g0 : List Nat) (coords : List (Nat × Nat)) (g1 : List Nat),
        coords ∈ allRegionCoords 4 2 → g0.length = 4 * 4 →
        fillRegion 4 g0 coords = (g1, true) →
        ∃ rc v, rc ∈ coords ∧ getCell 4 g0 rc.1 rc.2 = 0 ∧ 1 ≤ v ∧ v ≤ 4 ∧
          g1 = setCell 4 g0 rc.1 rc.2 v ∧ emptyCount g1 < emptyCount g0) ∧
    (∀ g1 : List Nat, fullPass 4 2 solved4Hole = (g1, true) →
      emptyCount g1 < emptyCount solved4Hole) ∧
    fullPass 4 2 (completePuzzle 4 2 solved4Hole)
      = (completePuzzle 4 2 solved4Hole, false) :=
  C4_completion_terminates 4 2 solved4Hole (by decide) (by decide)

/-- C8: for a grid with zero empty cells, the final `valid` flag is the AND
(`List.all`) of the 3N per-region checks on that grid, and this aggregate is
invariant under any permutation of the order of the region checks. -/
theorem C8_valid_is_and_of_regions (psize : Nat) (g : List Nat)
    (hsq : boxDim psize * boxDim psize = psize)
    (hlen : g.length = psize * psize) (h0 : emptyCount g = 0) :
    (checkPuzzle psize g).2.1
      = (allRegionCoords psize (boxDim psize)).all
          (fun coords => validateRegion psize g coords) ∧
    ∀ l : List (List (Nat × Nat)), l.Perm (allRegionCoords psize (boxDim psize)) →
      l.all (fun coords => validateRegion psize g coords)
        = (allRegionCoords psize (boxDim psize)).all
            (fun coords => validateRegion psize g coords) := by
  have hfix : completePuzzle psize (boxDim psize) g = g :=
    completePuzzle_of_complete psize (boxDim psize) g hsq hlen h0
  have hB : isCompleteGrid psize (completePuzzle psize (boxDim psize) g) = true := by
    rw [hfix]
    exact (isCompleteGrid_eq_true_iff psize g).mpr (emptyCount_zero_nonzero psize g hlen h0)
  constructor
  · rw [checkPuzzle_eq_of_complete hB]
    show validateAll psize (boxDim psize) (completePuzzle psize (boxDim psize) g) = _
    rw [hfix, validateAll]
  · intro l hperm
    exact perm_all_eq hperm _

theorem C8_valid_is_and_of_regions_witness :
    ((checkPuzzle 4 solved4).2.1
      = (allRegionCoords 4 (boxDim 4)).all
          (fun coords => validateRegion 4 solved4 coords)) ∧
    ∀ l : List (List (Nat × Nat)), l.Perm (allRegionCoords 4 (boxDim 4)) →
      l.all (fun coords => validateRegion 4 solved4 coords)
        = (allRegionCoords 4 (boxDim 4)).all
            (fun coords => validateRegion 4 solved4 coords) :=
  C8_valid_is_and_of_regions 4 solved4 (by decide) (by decide) (by decide)

/-- C9: tracker accesses are in bounds for the arrays of `psize + 1` cells —
the validation scan touches `found[num]` only after the `1 ≤ num ≤ psize`
test, for any input at all, and a completion sub-pass writes `present[num]`
only for the non-zero values scanned, which lie in `1..psize` whenever the
grid satisfies the `0..psize` data-model precondition. -/
theorem C9_tracker_accesses_in_bounds (psize : Nat) (nums vals : List Nat)
    (found : List Bool) (hvals : ∀ v ∈ vals, v ≤ psize) :
    (∀ a ∈ scanAccesses psize nums found, 1 ≤ a ∧ a < psize + 1) ∧
    (∀ a ∈ presentWrites vals, 1 ≤ a ∧ a < psize + 1) := by
  constructor
  · induction nums generalizing found with
    | nil => intro a ha; simp [scanAccesses] at ha
    | cons num rest ih =>
      intro a ha
      rw [scanAccesses] at ha
      split at ha
      next hcond => simp at ha
      next hcond =>
        have hb : 1 ≤ num ∧ num ≤ psize := by
          simp only [Bool.or_eq_true, decide_eq_true_eq, not_or] at hcond
          omega
        split at ha
        next =>
          have : a = num := by simpa using ha
          omega
        next =>
          rcases List.mem_cons.mp ha with rfl | ha'
          · omega
          · exact ih (found.set num true) a ha'
  · intro a ha
    rw [presentWrites] at ha
    have hm := List.mem_filter.mp ha
    have h0 : a ≠ 0 := by simpa using hm.2
    have := hvals a hm.1
    omega

theorem C9_tracker_accesses_in_bounds_witness :
    (∀ a ∈ scanAccesses 4 ([1, 2, 7, 0] : List Nat) (List.replicate 5 false),
      1 ≤ a ∧ a < 4 + 1) ∧
    (∀ a ∈ presentWrites ([0, 2, 4, 1] : List Nat), 1 ≤ a ∧ a < 4 + 1) :=
  C9_tracker_accesses_in_bounds 4 [1, 2, 7, 0] [0, 2, 4, 1]
    (List.replicate 5 false) (by decide)

/-- C5: a region of `psize` cells with exactly one empty cell whose non-zero
entries are distinct values in `1..psize` is filled at that cell with the
single value of `1..psize` missing from its non-zero entries. -/
theorem C5_single_missing_value_filled (psize : Nat) (g : List Nat)
    (coords : List (Nat × Nat)) (rc : Nat × Nat) (m : Nat)
    (hcl : coords.length = psize)
    (hone : coords.filter (fun x => getCell psize g x.1 x.2 == 0) = [rc])
    (hnd : ((regionValues psize g coords).filter (fun x => x != 0)).Nodup)
    (hsub : ∀ v ∈ (regionValues psize g coords).filter (fun x => x != 0),
      1 ≤ v ∧ v ≤ psize)
    (hm1 : 1 ≤ m) (hm2 : m ≤ psize)
    (hmn : m ∉ (regionValues psize g coords).filter (fun x => x != 0)) :
    fillRegion psize g coords = (setCell psize g rc.1 rc.2 m, true) := by
  have hlenv := nonzeroVals_length psize g coords rc hcl hone
  have hfind := find_first_missing psize
    ((regionValues psize g coords).filter (fun x => x != 0)) m hnd hsub hm1 hm2 hmn hlenv
  rw [fillRegion, hone, hfind]

theorem C5_single_missing_value_filled_witness :
    fillRegion 9 rowGrid9 (rowCoords 9 3) = (setCell 9 rowGrid9 3 5 5, true) :=
  C5_single_missing_value_filled 9 rowGrid9 (rowCoords 9 3) (3, 5) 5 (by decide)
    (by decide) (by decide) (by decide) (by decide) (by decide) (by decide)

/-- C10: a region with exactly one empty cell is always filled, and the
value written is the smallest value of `1..psize` not present among the
region's non-zero entries — also when duplicated entries leave several
values absent. -/
theorem C10_smallest_missing_written (psize : Nat) (g : List Nat)
    (coords : List (Nat × Nat)) (rc : Nat × Nat)
    (hcl : coords.length = psize)
    (hone : coords.filter (fun x => getCell psize g x.1 x.2 == 0) = [rc]) :
    ∃ v, fillRegion psize g coords = (setCell psize g rc.1 rc.2 v, true) ∧
      1 ≤ v ∧ v ≤ psize ∧
      v ∉ (regionValues psize g coords).filter (fun x => x != 0) ∧
      ∀ w, 1 ≤ w → w < v →
        w ∈ (regionValues psize g coords).filter (fun x => x != 0) := by
  have hlenv := nonzeroVals_length psize g coords rc hcl hone
  have hpsize : 1 ≤ psize := by
    have hrc : rc ∈ coords.filter (fun x => getCell psize g x.1 x.2 == 0) := by
      rw [hone]; exact List.mem_cons_self rc []
    have := List.length_pos_of_mem ((List.mem_filter.mp hrc).1)
    omega
  have hex : ∃ x ∈ oneTo psize,
      (!(((regionValues psize g coords).filter (fun x => x != 0)).contains x)) = true := by
    by_contra hall
    push_neg at hall
    have hsubset : oneTo psize ⊆ (regionValues psize g coords).filter (fun x => x != 0) := by
      intro x hx
      have := hall x hx
      simpa using this
    have hle := (List.subperm_of_subset (oneTo_nodup psize) hsubset).length_le
    rw [oneTo_length, hlenv] at hle
    omega
  obtain ⟨x, hx, hpx⟩ := hex
  obtain ⟨v, hv⟩ := find?_oneTo_exists
    (fun v => !(((regionValues psize g coords).filter (fun x => x != 0)).contains v))
    psize x hx hpx
  obtain ⟨h1, h2, h3, h4⟩ := find?_oneTo_spec _ psize v hv
  have hnot : v ∉ (regionValues psize g coords).filter (fun x => x != 0) := by
    intro hvin
    have hcv : ((regionValues psize g coords).filter (fun x => x != 0)).contains v
        = true := by
      simpa using hvin
    rw [hcv] at h1
    simp at h1
  refine ⟨v, ?_, h2, h3, hnot, ?_⟩
  · rw [fillRegion, hone, hv]
  · intro w hw1 hw2
    have := h4 w hw1 hw2
    simpa using this

theorem C10_smallest_missing_written_witness :
    ∃ v, fillRegion 4 dupRow4 (rowCoords 4 1) = (setCell 4 dupRow4 1 4 v, true) ∧
      1 ≤ v ∧ v ≤ 4 ∧
      v ∉ (regionValues 4 dupRow4 (rowCoords 4 1)).filter (fun x => x != 0) ∧
      ∀ w, 1 ≤ w → w < v →
        w ∈ (regionValues 4 dupRow4 (rowCoords 4 1)).filter (fun x => x != 0) :=
  C10_smallest_missing_written 4 dupRow4 (rowCoords 4 1) (1, 4) (by decide) (by decide)

/-- C1: when `checkPuzzle` reports `complete = true`, it reports
`valid = true` exactly when every row, column and box of the final grid is a
permutation of `1..psize`; and any region with an out-of-range value or a
duplicate fails its own check. -/
theorem C1_valid_iff_regions_perm (psize : Nat) (g : List Nat)
    (hsq : boxDim psize * boxDim psize = psize)
    (hc : (checkPuzzle psize g).1 = true) :
    ((checkPuzzle psize g).2.1 = true ↔
      ∀ coords ∈ allRegionCoords psize (boxDim psize),
        (regionValues psize (checkPuzzle psize g).2.2 coords).Perm (oneTo psize)) ∧
    (∀ coords ∈ allRegionCoords psize (boxDim psize),
      ((∃ v ∈ regionValues psize (checkPuzzle psize g).2.2 coords, v < 1 ∨ psize < v) ∨
        ¬ (regionValues psize (checkPuzzle psize g).2.2 coords).Nodup) →
      validateRegion psize (checkPuzzle psize g).2.2 coords = false) := by
  cases hB : isCompleteGrid psize (completePuzzle psize (boxDim psize) g) with
  | false =>
    rw [checkPuzzle_eq_of_incomplete hB] at hc
    exact absurd hc (by simp)
  | true =>
    rw [checkPuzzle_eq_of_complete hB]
    constructor
    · show validateAll psize (boxDim psize) (completePuzzle psize (boxDim psize) g)
        = true ↔ _
      rw [validateAll, List.all_eq_true]
      constructor
      · intro h coords hcc
        exact (validateRegion_eq_true_iff psize _ coords
          (allRegionCoords_length psize _ hsq coords hcc)).mp (h coords hcc)
      · intro h coords hcc
        exact (validateRegion_eq_true_iff psize _ coords
          (allRegionCoords_length psize _ hsq coords hcc)).mpr (h coords hcc)
    · intro coords hcc hbad
      cases hval : validateRegion psize
          (completePuzzle psize (boxDim psize) g) coords with
      | false => rfl
      | true =>
        have hperm := (validateRegion_eq_true_iff psize _ coords
          (allRegionCoords_length psize _ hsq coords hcc)).mp hval
        rcases hbad with ⟨v, hv, hout⟩ | hnd
        · have := mem_oneTo.mp (hperm.mem_iff.mp hv)
          omega
        · exact (hnd (hperm.nodup_iff.mpr (oneTo_nodup psize))).elim

theorem C1_valid_iff_regions_perm_witness :
    (((checkPuzzle 4 solved4).2.1 = true ↔
      ∀ coords ∈ allRegionCoords 4 (boxDim 4),
        (regionValues 4 (checkPuzzle 4 solved4).2.2 coords).Perm (oneTo 4))) ∧
    (∀ coords ∈ allRegionCoords 4 (boxDim 4),
      ((∃ v ∈ regionValues 4 (checkPuzzle 4 solved4).2.2 coords, v < 1 ∨ 4 < v) ∨
        ¬ (regionValues 4 (checkPuzzle 4 solved4).2.2 coords).Nodup) →
      validateRegion 4 (checkPuzzle 4 solved4).2.2 coords = false) :=
  C1_valid_iff_regions_perm 4 solved4 (by decide) (by decide)

end Sudoku
